import Mathlib

/-!
Verification of the `fsm` dependency-resolution core.

This file gives a shallow embedding, in Lean, of the Python modules
`fsm/pkg.py` (`Version`, `Package`), `fsm/checker.py` (`check`),
`fsm/graph.py` (`RecursionLimit`, `Node` and its traversals) and
`fsm/repo.py` / `fsm/resolver.py` (`Repo`, `Resolver`), together with
theorems settling the specification claims about that code.

Modelling conventions:
* Python object graphs of `Node` references are represented by a heap
  `Graph α`: a list of nodes, a node referring to its neighbours by
  position (index) in that list.  An index with no node behind it has no
  Python counterpart and is simply skipped by the traversals.
* Python `None` is modelled by `Option.none`; a raised exception by
  `Except.error`; an emitted warning by an element of a returned warning
  list.
* The mutable `seen` / `results` lists threaded through the recursive
  traversals become explicit state that is passed in and returned.
* Python sets of outgoing edges are modelled as lists, fixing one
  iteration order (the source iterates a `set` in an unspecified order;
  every theorem below is stated for the chosen order and none depends on
  a particular tie-break between independent siblings).
-/

namespace Fsm

/-- Embedding of `pkg.Version.__init__`: the five stored attributes.
`prerelease` and `build` are optional strings (`None` by default). -/
structure Version where
  major : Nat
  minor : Nat
  patch : Nat
  prerelease : Option String
  build : Option String
deriving DecidableEq, Repr

/-- Embedding of `Version.versionless = Version(0, 0, 0)`. -/
def Version.versionless : Version :=
  ⟨0, 0, 0, none, none⟩

/-- Embedding of `Version.__lt__`:
`self.major < other.major or self.minor < other.minor or self.patch < other.patch`. -/
def Version.lt (v w : Version) : Bool :=
  decide (v.major < w.major) || decide (v.minor < w.minor) || decide (v.patch < w.patch)

/-- Embedding of `Version.__gt__` (componentwise disjunction, mirrored). -/
def Version.gt (v w : Version) : Bool :=
  decide (v.major > w.major) || decide (v.minor > w.minor) || decide (v.patch > w.patch)

/-- Lexicographic order on `(major, minor, patch)` as the specification
words it ("ordering by version is lexicographic over (major, minor,
patch)").  This definition follows the spec, not the source, and exists
only to be compared against `Version.lt`. -/
def Version.specLexLt (v w : Version) : Bool :=
  decide (v.major < w.major) ||
    (decide (v.major = w.major) &&
      (decide (v.minor < w.minor) ||
        (decide (v.minor = w.minor) && decide (v.patch < w.patch))))

/-- Embedding of `Version.__eq__`.  The Python body compares
`major`, `minor`, `patch` with short-circuiting `and`, then reads
`self.prepublished`, an attribute that does not exist (the field is named
`prerelease`), which raises `AttributeError`.  So the comparison returns
`False` as soon as one of the first three components differs and raises
otherwise; it can never return `True`. -/
def Version.eqPy (v w : Version) : Except String Bool :=
  if v.major ≠ w.major then .ok false
  else if v.minor ≠ w.minor then .ok false
  else if v.patch ≠ w.patch then .ok false
  else .error "AttributeError: Version has no attribute prepublished"

/-- Embedding of `checker.check(expression, message, warn)`:
`if warn and not expression: warnings.warn(message)` else
`assert expression, message`; finally `return expression`.
The returned list carries the emitted warnings; `.error` models the
`AssertionError` aborting the caller. -/
def check (expression : Bool) (message : String) (warn : Bool) : Except String (Bool × List String) :=
  if warn && !expression then .ok (expression, [message])
  else if expression then .ok (expression, [])
  else .error message

/-- Embedding of `pkg.Package`: the attributes splatted into
`self.__dict__` by `__init__` — the four defaulted keys of
`Package.defaults` (`warn`, `version`, `url`, `dependencies`) plus the
required `name`.  `version = none` / `url = none` model a caller passing
Python `None` explicitly; dependency entries are package references,
modelled here by their names. -/
structure Package where
  warn : Bool
  version : Option Version
  url : Option String
  dependencies : List String
  name : String
deriving DecidableEq, Repr

/-- Embedding of `Package.defaults["warn"] = True`. -/
def Package.defaultWarn : Bool := true

/-- Embedding of `Package.defaults["version"] = Version.versionless`. -/
def Package.defaultVersion : Option Version := some Version.versionless

/-- Embedding of `Package.defaults["url"] = ""`. -/
def Package.defaultUrl : Option String := some ""

/-- Embedding of `Package.defaults["dependencies"] = list()`. -/
def Package.defaultDependencies : List String := []

/-- Embedding of `Package.conforms`: the four `check` calls in source
order, each passing `self.warn`; the accumulated warnings are returned,
and a failing `assert` aborts the sequence. -/
def Package.conforms (p : Package) : Except String (List String) := do
  let c1 ← check (decide (p.name.length > 0)) "no name?" p.warn
  let c2 ← check (decide (p.dependencies.length ≥ 0)) "no dependencies?" p.warn
  let c3 ← check p.version.isSome "no version?" p.warn
  let c4 ← check p.url.isSome "no url?" p.warn
  pure (c1.2 ++ c2.2 ++ c3.2 ++ c4.2)

/-- Embedding of `Package.__init__(**kwargs)`: splat defaults overridden
by the keyword arguments, then run `conforms()`.  A validation failure
under strict mode aborts construction (`.error`); otherwise the built
package is returned along with the warnings `conforms` emitted. -/
def Package.make (name : String) (version : Option Version) (url : Option String)
    (dependencies : List String) (warn : Bool) : Except String (Package × List String) :=
  let p : Package := ⟨warn, version, url, dependencies, name⟩
  (p.conforms).map (fun ws => (p, ws))

/-- Construction with every keyword except `name` omitted, i.e.
`Package(name=...)`: the omitted keys take the values of
`Package.defaults`. -/
def Package.makeDefaults (name : String) : Except String (Package × List String) :=
  Package.make name Package.defaultVersion Package.defaultUrl Package.defaultDependencies
    Package.defaultWarn

/-- Construction with only `name` and `warn` supplied, i.e.
`Package(name=..., warn=...)`. -/
def Package.makeWarn (name : String) (warn : Bool) : Except String (Package × List String) :=
  Package.make name Package.defaultVersion Package.defaultUrl Package.defaultDependencies warn

/-- A Python `Package` object: its identity (`oid`, the CPython object
address) together with its attribute record.  `class Package` defines no
`__eq__`, so `==` on packages falls back to `object.__eq__`, which
compares identity. -/
structure PyPackage where
  oid : Nat
  fields : Package
deriving DecidableEq, Repr

/-- Default `object.__eq__` as inherited by `Package`: identity
comparison. -/
def PyPackage.eqDefault (p q : PyPackage) : Bool :=
  decide (p.oid = q.oid)

/-- Field-wise package equality as the specification words it ("two
Packages are equal when all fields match").  This definition follows the
spec, not the source, and exists only to be compared with
`PyPackage.eqDefault`. -/
def PyPackage.specFieldsEq (p q : PyPackage) : Bool :=
  decide (p.fields = q.fields)

section Graph

variable {α β : Type}

/-- Embedding of `graph.Node`: `contents`, incoming edges and outgoing
edges.  A Python object graph is represented by the heap `Graph`; a node
names its neighbours by their index there. -/
structure Node (α : Type) where
  contents : α
  incoming : List Nat
  outgoing : List Nat
deriving DecidableEq, Repr

/-- The heap of `Node` objects a traversal runs over.  The Python source
has no such class — nodes point at each other directly — so this
structure only makes the object graph explicit. -/
structure Graph (α : Type) where
  nodes : List (Node α)
deriving DecidableEq, Repr

/-- Dereference a node index. -/
def Graph.get? (g : Graph α) (i : Nat) : Option (Node α) :=
  g.nodes.get? i

/-- The contents of every node of the heap. -/
def Graph.payloads (g : Graph α) : List α :=
  g.nodes.map Node.contents

/-- The well-formedness assumption of `graph`'s module docstring: if
`node0 -> node1` then `node0.outgoing` contains `node1` and
`node1.incoming` contains `node0`, and symmetrically. -/
def Graph.wellformed (g : Graph α) : Bool :=
  (List.range g.nodes.length).all fun i =>
    match g.get? i with
    | none => true
    | some ni =>
      ni.outgoing.all (fun j =>
        match g.get? j with
        | none => false
        | some nj => decide (i ∈ nj.incoming)) &&
      ni.incoming.all (fun j =>
        match g.get? j with
        | none => false
        | some nj => decide (i ∈ nj.outgoing))

/-- Number of heap payloads not yet recorded in `seen`; the quantity the
source docstring appeals to for termination ("the seen-set strictly
grows and no node is revisited"). -/
def unseenCount [DecidableEq α] (g : Graph α) (seen : List α) : Nat :=
  (g.payloads.filter (fun a => decide (a ∉ seen))).length

lemma filter_length_le_of_imp (p q : α → Bool) (h : ∀ a, p a = true → q a = true) :
    ∀ l : List α, (l.filter p).length ≤ (l.filter q).length := by
  intro l
  induction l with
  | nil => simp
  | cons a t ih =>
    cases hpa : p a with
    | true =>
      simp only [List.filter_cons, hpa, h a hpa, List.length_cons]
      exact Nat.succ_le_succ ih
    | false =>
      cases hqa : q a with
      | true =>
        simp only [List.filter_cons, hpa, hqa, List.length_cons]
        exact Nat.le_succ_of_le ih
      | false =>
        simp only [List.filter_cons, hpa, hqa]
        exact ih

lemma unseenCount_le_of_subset [DecidableEq α] (g : Graph α) {s₁ s₂ : List α}
    (h : ∀ x ∈ s₁, x ∈ s₂) : unseenCount g s₂ ≤ unseenCount g s₁ := by
  refine filter_length_le_of_imp _ _ ?_ _
  intro a ha
  simp only [decide_eq_true_eq] at ha ⊢
  exact fun hx => ha (h a hx)

lemma bool_not_true_of_eq_false {b : Bool} (h : b = false) : ¬ b = true := by
  simp [h]

lemma filter_notmem_append_lt [DecidableEq α] {l seen : List α} {c : α}
    (hc : c ∈ l) (hn : c ∉ seen) :
    (l.filter (fun a => decide (a ∉ seen ++ [c]))).length
      < (l.filter (fun a => decide (a ∉ seen))).length := by
  induction l with
  | nil => cases hc
  | cons a t ih =>
    rcases List.mem_cons.mp hc with rfl | hct
    · rw [List.filter_cons_of_neg (p := fun x => decide (x ∉ seen ++ [c])) (by simp),
        List.filter_cons_of_pos (p := fun x => decide (x ∉ seen)) (by simpa using hn)]
      refine Nat.lt_succ_of_le (filter_length_le_of_imp _ _ ?_ t)
      intro x hx
      simp only [decide_eq_true_eq, List.mem_append] at hx ⊢
      exact fun hmem => hx (Or.inl hmem)
    · cases hal : (decide (a ∉ seen ++ [c])) with
      | false =>
        rw [List.filter_cons_of_neg (p := fun x => decide (x ∉ seen ++ [c])) (bool_not_true_of_eq_false hal)]
        cases har : (decide (a ∉ seen)) with
        | false =>
          rw [List.filter_cons_of_neg (p := fun x => decide (x ∉ seen)) (bool_not_true_of_eq_false har)]
          exact ih hct
        | true =>
          rw [List.filter_cons_of_pos (p := fun x => decide (x ∉ seen)) har]
          exact Nat.lt_succ_of_lt (ih hct)
      | true =>
        have hal' : a ∉ seen ++ [c] := by simpa using hal
        have har : (decide (a ∉ seen)) = true := by
          simp only [decide_eq_true_eq]
          intro hmem
          exact hal' (List.mem_append_left _ hmem)
        rw [List.filter_cons_of_pos (p := fun x => decide (x ∉ seen ++ [c])) hal,
          List.filter_cons_of_pos (p := fun x => decide (x ∉ seen)) har]
        exact Nat.succ_lt_succ (ih hct)

lemma unseenCount_append_lt [DecidableEq α] (g : Graph α) {seen : List α} {c : α}
    (hc : c ∈ g.payloads) (hn : c ∉ seen) :
    unseenCount g (seen ++ [c]) < unseenCount g seen :=
  filter_notmem_append_lt hc hn

lemma get?_contents_mem_payloads (g : Graph α) {i : Nat} {nd : Node α}
    (h : g.get? i = some nd) : nd.contents ∈ g.payloads := by
  unfold Graph.get? at h
  exact List.mem_map_of_mem _ (List.get?_mem h)

/-- Embedding of the inner `_postorder(s, visitor, seen, results)` of
`Node.postorder` together with its `for o in s.outgoing` loop: the list
argument is the worklist of nodes the loop still has to visit, processed
left to right.  `_postorder(s, ...)` itself is the call on the singleton
list `[s]`.  The body mirrors the source: an unseen node is first added
to `seen`, its outgoing edges are traversed, and only then is
`visitor(s.contents)` appended to `results`.  The attached invariant
(both state lists only ever grow) is what makes the recursion
well-founded: the number of unseen payloads never increases and strictly
drops on every descent into a subtree. -/
def postAux [DecidableEq α] (g : Graph α) (visitor : α → β) :
    (ids : List Nat) → (seen : List α) → (results : List β) →
    { p : List α × List β // (∀ x ∈ seen, x ∈ p.1) ∧ (∀ x ∈ results, x ∈ p.2) }
  | [], seen, results => ⟨(seen, results), ⟨fun _ hx => hx, fun _ hx => hx⟩⟩
  | i :: rest, seen, results =>
    match hg : g.get? i with
    | none => postAux g visitor rest seen results
    | some nd =>
      if hc : nd.contents ∈ seen then
        postAux g visitor rest seen results
      else
        match postAux g visitor nd.outgoing (seen ++ [nd.contents]) results with
        | ⟨(seen₁, results₁), hsub₁⟩ =>
          match postAux g visitor rest seen₁ (results₁ ++ [visitor nd.contents]) with
          | ⟨(seen₂, results₂), hsub₂⟩ =>
            ⟨(seen₂, results₂),
              ⟨fun x hx => hsub₂.1 x (hsub₁.1 x (List.mem_append_left _ hx)),
               fun x hx => hsub₂.2 x (List.mem_append_left _ (hsub₁.2 x hx))⟩⟩
termination_by ids seen _ => (unseenCount g seen, ids.length)
decreasing_by
  · apply Prod.Lex.right
    simp
  · apply Prod.Lex.right
    simp
  · apply Prod.Lex.left
    exact unseenCount_append_lt g (get?_contents_mem_payloads g hg) hc
  · apply Prod.Lex.left
    have hle : unseenCount g seen₁ ≤ unseenCount g (seen ++ [nd.contents]) :=
      unseenCount_le_of_subset g hsub₁.1
    exact Nat.lt_of_le_of_lt hle
      (unseenCount_append_lt g (get?_contents_mem_payloads g hg) hc)

/-- Embedding of `Node.postorder(visitor, limit, seen)` without the
recursion-limit bookkeeping (modelled separately, see
`RecursionLimit`): run the inner `_postorder` on the node itself with
the supplied `seen` list (`seen or list()` — the caller passes `[]` for
the `None` default) and a fresh `results` list, and return the results. -/
def Node.postorder [DecidableEq α] (g : Graph α) (visitor : α → β) (i : Nat)
    (seen : List α) : List β :=
  (postAux g visitor [i] seen []).1.2

/-- Embedding of the local `identity` function of `Resolver.resolve`. -/
def Resolver.identity (c : α) : α := c

/-- Embedding of `Resolver.resolve(root)`:
`root.postorder(visitor=identity)` with a fresh `seen` list. -/
def Resolver.resolve [DecidableEq α] (g : Graph α) (i : Nat) : List α :=
  Node.postorder g Resolver.identity i []

/-- Embedding of the inner `_preorder(s, visitor, seen, results)` of
`Node.preorder` with its `for o in s.outgoing` loop as the worklist
argument, like `postAux`.  The only difference from `postAux` is that
`visitor(s.contents)` is appended *before* the outgoing edges are
traversed. -/
def preAux [DecidableEq α] (g : Graph α) (visitor : α → β) :
    (ids : List Nat) → (seen : List α) → (results : List β) →
    { p : List α × List β // (∀ x ∈ seen, x ∈ p.1) ∧ (∀ x ∈ results, x ∈ p.2) }
  | [], seen, results => ⟨(seen, results), ⟨fun _ hx => hx, fun _ hx => hx⟩⟩
  | i :: rest, seen, results =>
    match hg : g.get? i with
    | none => preAux g visitor rest seen results
    | some nd =>
      if hc : nd.contents ∈ seen then
        preAux g visitor rest seen results
      else
        match preAux g visitor nd.outgoing (seen ++ [nd.contents])
            (results ++ [visitor nd.contents]) with
        | ⟨(seen₁, results₁), hsub₁⟩ =>
          match preAux g visitor rest seen₁ results₁ with
          | ⟨(seen₂, results₂), hsub₂⟩ =>
            ⟨(seen₂, results₂),
              ⟨fun x hx => hsub₂.1 x (hsub₁.1 x (List.mem_append_left _ hx)),
               fun x hx => hsub₂.2 x (hsub₁.2 x (List.mem_append_left _ hx))⟩⟩
termination_by ids seen _ => (unseenCount g seen, ids.length)
decreasing_by
  · apply Prod.Lex.right
    simp
  · apply Prod.Lex.right
    simp
  · apply Prod.Lex.left
    exact unseenCount_append_lt g (get?_contents_mem_payloads g hg) hc
  · apply Prod.Lex.left
    have hle : unseenCount g seen₁ ≤ unseenCount g (seen ++ [nd.contents]) :=
      unseenCount_le_of_subset g hsub₁.1
    exact Nat.lt_of_le_of_lt hle
      (unseenCount_append_lt g (get?_contents_mem_payloads g hg) hc)

/-- Embedding of `Node.preorder(visitor, limit)` without the
recursion-limit bookkeeping: run the inner `_preorder` on the node with
fresh `seen` and `results` lists. -/
def Node.preorder [DecidableEq α] (g : Graph α) (visitor : α → β) (i : Nat) : List β :=
  (preAux g visitor [i] [] []).1.2

/-- Embedding of `Node.__len__`: `len(self.preorder(id))`. -/
def Node.len [DecidableEq α] (g : Graph α) (i : Nat) : Nat :=
  (Node.preorder g Resolver.identity i).length

/-- The `seen`-state evolution of the inner `_postorder` of
`Node.postorder_yield`, with the `for o in s.outgoing` loop as the
worklist argument: that inner function threads the mutable `seen` list
through the recursion exactly like `postAux` but accumulates no result
list — the recursive calls' return values are discarded by the loop. -/
def postYieldSeenAux [DecidableEq α] (g : Graph α) :
    (ids : List Nat) → (seen : List α) → { s : List α // ∀ x ∈ seen, x ∈ s }
  | [], seen => ⟨seen, fun _ hx => hx⟩
  | i :: rest, seen =>
    match hg : g.get? i with
    | none => postYieldSeenAux g rest seen
    | some nd =>
      if hc : nd.contents ∈ seen then
        postYieldSeenAux g rest seen
      else
        match postYieldSeenAux g nd.outgoing (seen ++ [nd.contents]) with
        | ⟨seen₁, hsub₁⟩ =>
          match postYieldSeenAux g rest seen₁ with
          | ⟨seen₂, hsub₂⟩ =>
            ⟨seen₂, fun x hx => hsub₂ x (hsub₁ x (List.mem_append_left _ hx))⟩
termination_by ids seen => (unseenCount g seen, ids.length)
decreasing_by
  · apply Prod.Lex.right
    simp
  · apply Prod.Lex.right
    simp
  · apply Prod.Lex.left
    exact unseenCount_append_lt g (get?_contents_mem_payloads g hg) hc
  · apply Prod.Lex.left
    have hle : unseenCount g seen₁ ≤ unseenCount g (seen ++ [nd.contents]) :=
      unseenCount_le_of_subset g hsub₁
    exact Nat.lt_of_le_of_lt hle
      (unseenCount_append_lt g (get?_contents_mem_payloads g hg) hc)

/-- The value of one call of the inner `_postorder` of
`Node.postorder_yield`: `None` when the contents were already seen,
otherwise `visitor(s.contents)` after the outgoing edges have been
walked for their effect on `seen` (whose final value is discarded by the
caller, hence the wildcard binding). -/
def Node.postorderYieldStep [DecidableEq α] (g : Graph α) (visitor : α → β) (i : Nat)
    (seen : List α) : Option β :=
  match g.get? i with
  | none => none
  | some nd =>
    if nd.contents ∈ seen then none
    else
      let _ := postYieldSeenAux g nd.outgoing (seen ++ [nd.contents])
      some (visitor nd.contents)

/-- Embedding of `Node.postorder_yield(visitor, limit, seen)` without
the recursion-limit bookkeeping: the generator body consists of the
single statement `yield _postorder(self, visitor, seen or list())`, so
one full invocation produces exactly one item — the inner call's return
value. -/
def Node.postorderYield [DecidableEq α] (g : Graph α) (visitor : α → β) (i : Nat)
    (seen : List α) : List (Option β) :=
  [Node.postorderYieldStep g visitor i seen]

/-- Embedding of `graph.RecursionLimit`: the requested `limit` and the
`revert` slot (`None` until `__enter__` decides to save the previous
value). -/
structure RecursionLimit where
  limit : Int
  revert : Option Nat
deriving DecidableEq, Repr

/-- Embedding of `RecursionLimit.__enter__` acting on the
`sys.getrecursionlimit()` process state `st`: when `st < limit`, save
`st` in `revert` and set the process limit to `limit`; otherwise leave
everything untouched. -/
def RecursionLimit.enter (limit : Int) (st : Nat) : RecursionLimit × Nat :=
  if (st : Int) < limit then (⟨limit, some st⟩, limit.toNat) else (⟨limit, none⟩, st)

/-- Embedding of `RecursionLimit.__exit__`: `if self.revert:
sys.setrecursionlimit(self.revert)`.  Python truthiness makes both
`None` and `0` skip the restore. -/
def RecursionLimit.exit (rl : RecursionLimit) (st : Nat) : Nat :=
  match rl.revert with
  | some r => if r = 0 then st else r
  | none => st

/-- A `with RecursionLimit(limit=limit) as rl: body` block acting on the
process recursion-limit state: `__enter__` runs first, the body value is
whatever it is (`.error` models a body that raises), and `__exit__` runs
on *every* exit path — the context-manager protocol Python guarantees —
with the block returning `False` so any exception propagates. -/
def runWithRecursionLimit {γ : Type} (limit : Int) (st : Nat) (body : Except String γ) :
    Nat × Except String γ :=
  let p := RecursionLimit.enter limit st
  (RecursionLimit.exit p.1 p.2, body)

/-- `Node.preorder(visitor, limit)` including its `with
RecursionLimit(limit=limit)` wrapper; the first component is the process
recursion limit after the call. -/
def Node.preorderWithLimit [DecidableEq α] (g : Graph α) (visitor : α → β) (i : Nat)
    (limit : Int) (st : Nat) : Nat × Except String (List β) :=
  runWithRecursionLimit limit st (.ok (Node.preorder g visitor i))

/-- `Node.postorder(visitor, limit, seen)` including its `with
RecursionLimit(limit=limit)` wrapper. -/
def Node.postorderWithLimit [DecidableEq α] (g : Graph α) (visitor : α → β) (i : Nat)
    (seen : List α) (limit : Int) (st : Nat) : Nat × Except String (List β) :=
  runWithRecursionLimit limit st (.ok (Node.postorder g visitor i seen))

/-- `Node.postorder_yield(visitor, limit, seen)` including its `with
RecursionLimit(limit=limit)` wrapper. -/
def Node.postorderYieldWithLimit [DecidableEq α] (g : Graph α) (visitor : α → β) (i : Nat)
    (seen : List α) (limit : Int) (st : Nat) : Nat × Except String (List (Option β)) :=
  runWithRecursionLimit limit st (.ok (Node.postorderYield g visitor i seen))

/-- Embedding of a Python `dict` assignment `d[k] = v` for the
string-keyed index: an existing binding is replaced in place, a new key
is appended. -/
def dictInsert (m : List (String × Package)) (k : String) (v : Package) :
    List (String × Package) :=
  if m.any (fun kv => kv.1 == k) then
    m.map (fun kv => if kv.1 == k then (k, v) else kv)
  else m ++ [(k, v)]

/-- Embedding of `repo.Repo`: the `index` built by
`{p.name: p for p in packages}`. -/
structure Repo where
  index : List (String × Package)
deriving DecidableEq, Repr

/-- Embedding of `Repo.__init__(packages)`: the dict comprehension over
the package list (later duplicates of a name overwrite earlier ones). -/
def Repo.ofPackages (packages : List Package) : Repo :=
  ⟨packages.foldl (fun m p => dictInsert m p.name p) []⟩

/-- Embedding of `Repo.__contains__(package)`:
`self.index.get(package.name)`, whose truthiness the `in` operator
converts to a boolean — `None` (absent name) is falsy, a `Package` is
truthy. -/
def Repo.contains (r : Repo) (package : Package) : Bool :=
  (r.index.lookup package.name).isSome

/-- Embedding of `Resolver.available(root, r)`.  The body is the bare
expression statement `all(p in r for p in Resolver.resolve(root))`: the
quantification is evaluated and its value discarded, and since the
function has no `return` statement it returns `None` — modelled by
`Option.none` at the annotated return type `t.List[pkg.Package]`. -/
def Resolver.available (g : Graph Package) (i : Nat) (r : Repo) : Option (List Package) :=
  let _ := (Resolver.resolve g i).all (fun p => r.contains p)
  none

/-- What the specification says `available` reports: "the list (or set)
of missing package names" — "exactly the set of names in the order not
present in the repository's index".  This definition follows the spec,
not the source, and exists only to be compared with
`Resolver.available`. -/
def Resolver.specAvailableMissing (g : Graph Package) (i : Nat) (r : Repo) : List String :=
  ((Resolver.resolve g i).filter (fun p => !(r.contains p))).map Package.name


/-- A single node whose payload depends on itself: the smallest
well-formed cyclic graph (`incoming` and `outgoing` mirror each other). -/
def selfLoop : Graph Nat := ⟨[⟨7, [0], [0]⟩]⟩

/-- A two-node dependency chain: node 0 (payload `10`) depends on node 1
(payload `20`). -/
def demoChain : Graph Nat := ⟨[⟨10, [], [1]⟩, ⟨20, [0], []⟩]⟩

/-- The two-node directed cycle `X → Y → X` of the termination claim,
with payloads `px` and `py`. -/
def cycleGraph (px py : α) : Graph α := ⟨[⟨px, [1], [1]⟩, ⟨py, [0], [0]⟩]⟩

/-- A package built as `Package(name=...)` would build it: every other
attribute at its default. -/
def demoPackage (name : String) : Package :=
  ⟨true, some Version.versionless, some "", [], name⟩

/-- A one-package dependency graph. -/
def demoPkgGraph : Graph Package := ⟨[⟨demoPackage "emacs", [], []⟩]⟩

/-- A repository with an empty index. -/
def emptyRepo : Repo := Repo.ofPackages []

/-- A package object at address 0. -/
def pkgA0 : PyPackage := ⟨0, demoPackage "alpha"⟩

/-- A distinct package object, field-identical to `pkgA0`. -/
def pkgA1 : PyPackage := ⟨1, demoPackage "alpha"⟩

/-- Two distinct but field-identical package objects, one depending on
the other, with payload identity as CPython compares it. -/
def dupPyGraph : Graph PyPackage := ⟨[⟨pkgA0, [], [1]⟩, ⟨pkgA1, [0], []⟩]⟩

/-- The same shape with the payloads compared field-wise instead. -/
def dupFieldsGraph : Graph Package :=
  ⟨[⟨demoPackage "alpha", [], [1]⟩, ⟨demoPackage "alpha", [0], []⟩]⟩

/-- Whether a modelled Python call completed without raising. -/
def exceptIsOk {γ : Type} : Except String γ → Bool
  | .ok _ => true
  | .error _ => false

lemma postAux_nil [DecidableEq α] (g : Graph α) (visitor : α → β) (seen : List α)
    (results : List β) : (postAux g visitor [] seen results).1 = (seen, results) := by
  rw [postAux.eq_def]

lemma postAux_cons_none [DecidableEq α] (g : Graph α) (visitor : α → β) {i : Nat}
    (rest : List Nat) (seen : List α) (results : List β)
    (hg : g.get? i = none) :
    (postAux g visitor (i :: rest) seen results).1 =
      (postAux g visitor rest seen results).1 := by
  rw [postAux.eq_def]
  dsimp only
  split
  · rfl
  · rename_i nd' heq
    rw [hg] at heq
    cases heq

lemma postAux_cons_seen [DecidableEq α] (g : Graph α) (visitor : α → β) {i : Nat}
    (rest : List Nat) (seen : List α) (results : List β) {nd : Node α}
    (hg : g.get? i = some nd) (hc : nd.contents ∈ seen) :
    (postAux g visitor (i :: rest) seen results).1 =
      (postAux g visitor rest seen results).1 := by
  rw [postAux.eq_def]
  dsimp only
  split
  · rename_i heq
    rw [hg] at heq
  · rename_i nd' heq
    rw [hg] at heq
    cases heq
    rw [dif_pos hc]

lemma postAux_cons_new [DecidableEq α] (g : Graph α) (visitor : α → β) {i : Nat}
    (rest : List Nat) (seen : List α) (results : List β) {nd : Node α}
    (hg : g.get? i = some nd) (hc : nd.contents ∉ seen) :
    (postAux g visitor (i :: rest) seen results).1 =
      (postAux g visitor rest
        (postAux g visitor nd.outgoing (seen ++ [nd.contents]) results).1.1
        ((postAux g visitor nd.outgoing (seen ++ [nd.contents]) results).1.2
          ++ [visitor nd.contents])).1 := by
  rw [postAux.eq_def]
  dsimp only
  split
  · rename_i heq
    rw [hg] at heq
    cases heq
  · rename_i nd' heq
    rw [hg] at heq
    cases heq
    rw [dif_neg hc]

/-- Invariants of the postorder traversal with the identity visitor, by
functional induction: writing `(seen', results')` for the state returned
by `postAux`, (1) everything seen is old or already appended to the
results, (2) every result is old or was unseen on entry and is seen now,
(3) the contents of every valid worklist entry end up seen, (4) `seen`
never acquires duplicates, (5) everything seen is old or a payload of
the heap, and (6) results and seen grow by the same count. -/
lemma postAux_spec [DecidableEq α] (g : Graph α) :
    ∀ (ids : List Nat) (seen results : List α),
      (∀ x ∈ (postAux g Resolver.identity ids seen results).1.1,
          x ∈ seen ∨ x ∈ (postAux g Resolver.identity ids seen results).1.2) ∧
      (∀ x ∈ (postAux g Resolver.identity ids seen results).1.2,
          x ∈ results ∨ (x ∉ seen ∧ x ∈ (postAux g Resolver.identity ids seen results).1.1)) ∧
      (∀ j ∈ ids, ∀ nj : Node α, g.get? j = some nj →
          nj.contents ∈ (postAux g Resolver.identity ids seen results).1.1) ∧
      (seen.Nodup → (postAux g Resolver.identity ids seen results).1.1.Nodup) ∧
      (∀ x ∈ (postAux g Resolver.identity ids seen results).1.1, x ∈ seen ∨ x ∈ g.payloads) ∧
      ((postAux g Resolver.identity ids seen results).1.2.length + seen.length
        = results.length + (postAux g Resolver.identity ids seen results).1.1.length) := by
  intro ids seen results
  induction ids, seen, results using postAux.induct g Resolver.identity with
  | case1 seen results =>
    rw [postAux_nil]
    refine ⟨fun x hx => Or.inl hx, fun x hx => Or.inl hx, ?_, fun h => h,
      fun x hx => Or.inl hx, rfl⟩
    intro j hj
    exact absurd hj (List.not_mem_nil j)
  | case2 i rest seen results hg ih =>
    rw [postAux_cons_none g Resolver.identity rest seen results hg]
    obtain ⟨hA, hB, hC, hD, hE, hF⟩ := ih
    refine ⟨hA, hB, ?_, hD, hE, hF⟩
    intro j hj nj hnj
    rcases List.mem_cons.mp hj with rfl | hj'
    · rw [hg] at hnj
      cases hnj
    · exact hC j hj' nj hnj
  | case3 i rest seen results nd hg hc ih =>
    rw [postAux_cons_seen g Resolver.identity rest seen results hg hc]
    obtain ⟨hA, hB, hC, hD, hE, hF⟩ := ih
    refine ⟨hA, hB, ?_, hD, hE, hF⟩
    intro j hj nj hnj
    rcases List.mem_cons.mp hj with rfl | hj'
    · rw [hg] at hnj
      injection hnj with hnd
      subst hnd
      exact (postAux g Resolver.identity rest seen results).2.1 nd.contents hc
    · exact hC j hj' nj hnj
  | case4 i rest seen results nd hg hc seen₁ results₁ hsub₁ heq₁ seen₂ results₂ hsub₂ heq₂ ih₁ ih₂ =>
    have e₁ : (postAux g Resolver.identity nd.outgoing (seen ++ [nd.contents]) results).1
        = (seen₁, results₁) := congrArg Subtype.val heq₁
    have e₂ : (postAux g Resolver.identity rest seen₁
          (results₁ ++ [Resolver.identity nd.contents])).1
        = (seen₂, results₂) := congrArg Subtype.val heq₂
    have estep := postAux_cons_new g Resolver.identity rest seen results hg hc
    rw [e₁] at estep
    dsimp only at estep
    rw [e₂] at estep
    rw [estep]
    rw [e₁] at ih₁
    rw [e₂] at ih₂
    dsimp only at ih₁ ih₂ ⊢
    obtain ⟨hA₁, hB₁, hC₁, hD₁, hE₁, hF₁⟩ := ih₁
    obtain ⟨hA₂, hB₂, hC₂, hD₂, hE₂, hF₂⟩ := ih₂
    have hs₁ : ∀ x ∈ seen ++ [nd.contents], x ∈ seen₁ := fun x hx => hsub₁.1 x hx
    have hs₂ : ∀ x ∈ seen₁, x ∈ seen₂ := fun x hx => hsub₂.1 x hx
    have hr₂ : ∀ x ∈ results₁ ++ [nd.contents], x ∈ results₂ := fun x hx => hsub₂.2 x hx
    have hcmem : nd.contents ∈ seen₁ := hs₁ nd.contents (by simp)
    simp only [Resolver.identity] at hB₂ hF₂
    refine ⟨?_, ?_, ?_, ?_, ?_, ?_⟩
    · intro x hx
      rcases hA₂ x hx with hx₁ | hx₂
      · rcases hA₁ x hx₁ with hxs | hxr
        · rcases List.mem_append.mp hxs with hxs' | hxc
          · exact Or.inl hxs'
          · have hxeq : x = nd.contents := by simpa using hxc
            subst hxeq
            exact Or.inr (hr₂ _ (List.mem_append_right _ (by simp)))
        · exact Or.inr (hr₂ x (List.mem_append_left _ hxr))
      · exact Or.inr hx₂
    · intro x hx
      rcases hB₂ x hx with hx₁ | hx₂
      · rcases List.mem_append.mp hx₁ with hxr | hxc
        · rcases hB₁ x hxr with hxres | hxnew
          · exact Or.inl hxres
          · exact Or.inr ⟨fun hmem => hxnew.1 (List.mem_append_left _ hmem), hs₂ x hxnew.2⟩
        · have hxeq : x = nd.contents := by simpa using hxc
          subst hxeq
          exact Or.inr ⟨hc, hs₂ _ hcmem⟩
      · exact Or.inr ⟨fun hmem => hx₂.1 (hs₁ x (List.mem_append_left _ hmem)), hx₂.2⟩
    · intro j hj nj hnj
      rcases List.mem_cons.mp hj with rfl | hj'
      · rw [hg] at hnj
        injection hnj with hnd
        subst hnd
        exact hs₂ _ hcmem
      · exact hC₂ j hj' nj hnj
    · intro hnod
      refine hD₂ (hD₁ ?_)
      simp only [List.nodup_append, List.nodup_singleton, List.disjoint_singleton]
      exact ⟨hnod, trivial, hc⟩
    · intro x hx
      rcases hE₂ x hx with hx₁ | hxp
      · rcases hE₁ x hx₁ with hxs | hxp'
        · rcases List.mem_append.mp hxs with hxs' | hxc
          · exact Or.inl hxs'
          · have hxeq : x = nd.contents := by simpa using hxc
            subst hxeq
            exact Or.inr (get?_contents_mem_payloads g hg)
        · exact Or.inr hxp'
      · exact Or.inr hxp
    · have l₁ : (seen ++ [nd.contents]).length = seen.length + 1 := by simp
      have l₂ : (results₁ ++ [nd.contents]).length = results₁.length + 1 := by simp
      rw [l₁] at hF₁
      rw [l₂] at hF₂
      omega


lemma check_warn_true (e : Bool) (m : String) :
    check e m true = .ok (e, if e then [] else [m]) := by
  cases e <;> rfl

lemma conforms_warn_true (p : Package) (h : p.warn = true) :
    ∃ ws : List String, p.conforms = Except.ok ws := by
  unfold Package.conforms
  rw [h, check_warn_true, check_warn_true, check_warn_true, check_warn_true]
  exact ⟨_, rfl⟩

/-- Claim C1 (amended): for every dependency graph and every edge `A → B`
whose endpoints carry *distinct* payloads, the payload of `B` appears at
a strictly smaller index than the payload of `A` in
`Resolver.resolve(A)`.  (The unamended claim, without the distinctness
hypothesis, is refuted by `c1_counterexample`: a well-formed self-loop
puts the two payloads at the same index.) -/
theorem c1_dependency_first_amended [DecidableEq α] (g : Graph α) (a b : Nat)
    (na nb : Node α) (hga : g.get? a = some na) (hgb : g.get? b = some nb)
    (hedge : b ∈ na.outgoing) (hne : nb.contents ≠ na.contents) :
    List.indexOf nb.contents (Resolver.resolve g a)
      < List.indexOf na.contents (Resolver.resolve g a) := by
  have hstep := postAux_cons_new g Resolver.identity [] ([] : List α) ([] : List α)
    hga (List.not_mem_nil _)
  rw [postAux_nil] at hstep
  have hres : Resolver.resolve g a
      = (postAux g Resolver.identity na.outgoing ([] ++ [na.contents]) []).1.2
        ++ [Resolver.identity na.contents] := by
    unfold Resolver.resolve Node.postorder
    rw [hstep]
  obtain ⟨hA, hB, hC, -, -, -⟩ := postAux_spec g na.outgoing ([] ++ [na.contents]) []
  have hbmem : nb.contents
      ∈ (postAux g Resolver.identity na.outgoing ([] ++ [na.contents]) []).1.1 :=
    hC b hedge nb hgb
  have hbr : nb.contents
      ∈ (postAux g Resolver.identity na.outgoing ([] ++ [na.contents]) []).1.2 := by
    rcases hA nb.contents hbmem with hxs | hxr
    · exact absurd (by simpa using hxs) hne
    · exact hxr
  have hcnr : na.contents
      ∉ (postAux g Resolver.identity na.outgoing ([] ++ [na.contents]) []).1.2 := by
    intro hmem
    rcases hB na.contents hmem with hxres | hxnew
    · exact absurd hxres (List.not_mem_nil _)
    · exact hxnew.1 (by simp)
  rw [hres]
  simp only [Resolver.identity]
  rw [List.indexOf_append_of_mem hbr, List.indexOf_append_of_not_mem hcnr,
    List.indexOf_cons_self]
  have := List.indexOf_lt_length.mpr hbr
  omega

/-- Claim C1, witness: on the two-node chain `10 → 20` the hypotheses of
`c1_dependency_first_amended` hold and the dependency payload `20`
indeed precedes `10` in the resolved order. -/
theorem c1_dependency_first_amended_witness :
    demoChain.get? 0 = some ⟨10, [], [1]⟩ ∧
    demoChain.get? 1 = some ⟨20, [0], []⟩ ∧
    (1 ∈ ([1] : List Nat)) ∧
    ((20 : Nat) ≠ 10) ∧
    List.indexOf 20 (Resolver.resolve demoChain 0)
      < List.indexOf 10 (Resolver.resolve demoChain 0) :=
  ⟨rfl, rfl, by decide, by decide,
    c1_dependency_first_amended demoChain 0 1 ⟨10, [], [1]⟩ ⟨20, [0], []⟩ rfl rfl
      (by decide) (by decide)⟩

/-- Claim C1, counterexample to the unamended statement: `selfLoop` is a
well-formed graph with the edge `0 → 0`, yet in `resolve(0) = [7]` the
payload of the edge target does not appear at a strictly smaller index
than the payload of the edge source — they are the same payload at the
same index. -/
theorem c1_counterexample :
    Graph.wellformed selfLoop = true ∧
    selfLoop.get? 0 = some ⟨7, [0], [0]⟩ ∧
    (0 ∈ ([0] : List Nat)) ∧
    Resolver.resolve selfLoop 0 = [7] ∧
    ¬ (List.indexOf (7 : Nat) (Resolver.resolve selfLoop 0)
        < List.indexOf (7 : Nat) (Resolver.resolve selfLoop 0)) := by
  refine ⟨by decide, rfl, by decide, ?_, Nat.lt_irrefl _⟩
  simp [Resolver.resolve, Node.postorder, postAux, selfLoop, Graph.get?, Resolver.identity]

/-- Claim C2: `Resolver.resolve` terminates on every graph — it is a
total function whose output is never longer than the graph — and on the
directed cycle `X → Y → X` with distinct payloads, `resolve(X)` is the
finite sequence `[Y, X]`, containing each payload exactly once. -/
theorem c2_termination_on_cycles [DecidableEq α] (px py : α) (hne : px ≠ py) :
    Resolver.resolve (cycleGraph px py) 0 = [py, px] ∧
    (Resolver.resolve (cycleGraph px py) 0).count px = 1 ∧
    (Resolver.resolve (cycleGraph px py) 0).count py = 1 ∧
    ∀ (g : Graph α) (i : Nat), (Resolver.resolve g i).length ≤ g.nodes.length := by
  have hres : Resolver.resolve (cycleGraph px py) 0 = [py, px] := by
    simp [Resolver.resolve, Node.postorder, postAux, cycleGraph, Graph.get?,
      Resolver.identity, Ne.symm hne]
  refine ⟨hres, ?_, ?_, ?_⟩
  · rw [hres]
    simp [List.count_cons, List.count_nil, hne, Ne.symm hne]
  · rw [hres]
    simp [List.count_cons, List.count_nil, hne, Ne.symm hne]
  · intro g i
    obtain ⟨-, -, -, hD, hE, hF⟩ := postAux_spec g [i] [] []
    have hnodup : (postAux g Resolver.identity [i] [] []).1.1.Nodup := hD List.nodup_nil
    have hsubset : (postAux g Resolver.identity [i] [] []).1.1 ⊆ g.payloads := by
      intro x hx
      rcases hE x hx with hxs | hxp
      · exact absurd hxs (List.not_mem_nil _)
      · exact hxp
    have hlen : (postAux g Resolver.identity [i] [] []).1.1.length ≤ g.payloads.length :=
      (List.subperm_of_subset hnodup hsubset).length_le
    have hpay : g.payloads.length = g.nodes.length := by
      simp [Graph.payloads]
    unfold Resolver.resolve Node.postorder
    simp only [List.length_nil] at hF
    omega

/-- Claim C2, witness: the cycle with payloads `3 ≠ 4` resolves to
`[4, 3]` with each payload exactly once. -/
theorem c2_termination_on_cycles_witness :
    ((3 : Nat) ≠ 4) ∧
    Resolver.resolve (cycleGraph 3 4) 0 = [4, 3] ∧
    (Resolver.resolve (cycleGraph 3 4) 0).count 3 = 1 ∧
    (Resolver.resolve (cycleGraph 3 4) 0).count 4 = 1 :=
  ⟨by decide,
    (c2_termination_on_cycles 3 4 (by decide)).1,
    (c2_termination_on_cycles 3 4 (by decide)).2.1,
    (c2_termination_on_cycles 3 4 (by decide)).2.2.1⟩

/-- Claim C3 (code bug): `Resolver.available` evaluates
`all(p in r for p in resolve(root))` but discards the value and has no
`return` statement, so it returns `None` on *every* input — it never
returns the collection of missing names the claim describes.  On the
one-package graph against the empty repository the missing set the
specification requires is `["emacs"]`, not `None`. -/
theorem c3_available_bug :
    (∀ (g : Graph Package) (i : Nat) (r : Repo), Resolver.available g i r = none) ∧
    Resolver.resolve demoPkgGraph 0 = [demoPackage "emacs"] ∧
    Resolver.specAvailableMissing demoPkgGraph 0 emptyRepo = ["emacs"] := by
  refine ⟨fun g i r => rfl, ?_, ?_⟩
  · simp [Resolver.resolve, Node.postorder, postAux, demoPkgGraph, Graph.get?,
      Resolver.identity]
  · have hres : Resolver.resolve demoPkgGraph 0 = [demoPackage "emacs"] := by
      simp [Resolver.resolve, Node.postorder, postAux, demoPkgGraph, Graph.get?,
        Resolver.identity]
    simp [Resolver.specAvailableMissing, hres, Repo.contains, emptyRepo, Repo.ofPackages,
      demoPackage]

/-- Claim C4 (code bug): `class Package` defines no `__eq__` (despite its
docstring), so two field-identical `Package` objects compare unequal
(identity comparison) while the spec-side field-wise equality calls them
equal; consequently the traversal seen-tracking keeps both field-identical
payloads (`resolve` returns two entries) instead of collapsing them as
field-wise payload equality would (one entry). -/
theorem c4_package_eq_bug :
    PyPackage.specFieldsEq pkgA0 pkgA1 = true ∧
    PyPackage.eqDefault pkgA0 pkgA1 = false ∧
    Resolver.resolve dupPyGraph 0 = [pkgA1, pkgA0] ∧
    Resolver.resolve dupFieldsGraph 0 = [demoPackage "alpha"] := by
  refine ⟨by decide, by decide, ?_, ?_⟩
  · simp [Resolver.resolve, Node.postorder, postAux, dupPyGraph, Graph.get?,
      Resolver.identity, pkgA0, pkgA1, demoPackage]
  · simp [Resolver.resolve, Node.postorder, postAux, dupFieldsGraph, Graph.get?,
      Resolver.identity, demoPackage]

/-- Claim C5 (code bug): one invocation of `Node.postorder_yield` yields
exactly one item — the inner call value for the root — while
`Node.postorder` returns the whole traversal; on the two-node chain the
eager traversal gives two results and the lazy one gives one, so the two
sequences differ. -/
theorem c5_lazy_bug :
    Node.postorder demoChain Resolver.identity 0 [] = [20, 10] ∧
    Node.postorderYield demoChain Resolver.identity 0 [] = [some 10] ∧
    (Node.postorder demoChain Resolver.identity 0 []).map some
      ≠ Node.postorderYield demoChain Resolver.identity 0 [] := by
  refine ⟨?_, ?_, ?_⟩
  · simp [Node.postorder, postAux, demoChain, Graph.get?, Resolver.identity]
  · simp [Node.postorderYield, Node.postorderYieldStep, postYieldSeenAux, demoChain,
      Graph.get?, Resolver.identity]
  · intro h
    have h1 : Node.postorder demoChain Resolver.identity 0 [] = [20, 10] := by
      simp [Node.postorder, postAux, demoChain, Graph.get?, Resolver.identity]
    have h2 : Node.postorderYield demoChain Resolver.identity 0 [] = [some 10] := by
      simp [Node.postorderYield, Node.postorderYieldStep, postYieldSeenAux, demoChain,
        Graph.get?, Resolver.identity]
    rw [h1, h2] at h
    cases h

/-- Claim C6: constructing a `Package` with an empty name under strict
validation (`warn=False`) raises (`AssertionError: no name?`), aborting
construction; under permissive validation (`warn=True`) it succeeds,
emits the warning `no name?`, and returns a usable instance. -/
theorem c6_strict_vs_permissive :
    Package.makeWarn "" false = .error "no name?" ∧
    Package.makeWarn "" true
      = .ok (⟨true, Package.defaultVersion, Package.defaultUrl, [], ""⟩, ["no name?"]) := by
  constructor
  · rfl
  · rfl

/-- Claim C7 (amended): `Version.__lt__` is the componentwise disjunction
`major < major or minor < minor or patch < patch`, not the lexicographic
order; it is implied by the lexicographic order and is irreflexive, but
it is not a strict order (see `c7_lt_counterexample`). -/
theorem c7_lt_amended : ∀ v w : Version,
    (Version.specLexLt v w = true → Version.lt v w = true) ∧ Version.lt v v = false := by
  intro v w
  constructor
  · intro h
    simp only [Version.specLexLt, Bool.or_eq_true, Bool.and_eq_true,
      decide_eq_true_eq] at h
    simp only [Version.lt, Bool.or_eq_true, decide_eq_true_eq]
    omega
  · simp [Version.lt]

/-- Claim C7, witness: `0.0.0` precedes `1.0.0` lexicographically, and
`c7_lt_amended` then gives `0.0.0 < 1.0.0` under `Version.__lt__`. -/
theorem c7_lt_amended_witness :
    Version.specLexLt ⟨0, 0, 0, none, none⟩ ⟨1, 0, 0, none, none⟩ = true ∧
    Version.lt ⟨0, 0, 0, none, none⟩ ⟨1, 0, 0, none, none⟩ = true :=
  ⟨by decide, (c7_lt_amended ⟨0, 0, 0, none, none⟩ ⟨1, 0, 0, none, none⟩).1 (by decide)⟩

/-- Claim C7, counterexample to the claim as stated: `1.0.0 < 0.1.0` and
`0.1.0 < 1.0.0` both hold under `Version.__lt__`, so it is neither the
lexicographic comparison (which rejects the former) nor a strict
order. -/
theorem c7_lt_counterexample :
    Version.lt ⟨1, 0, 0, none, none⟩ ⟨0, 1, 0, none, none⟩ = true ∧
    Version.lt ⟨0, 1, 0, none, none⟩ ⟨1, 0, 0, none, none⟩ = true ∧
    Version.specLexLt ⟨1, 0, 0, none, none⟩ ⟨0, 1, 0, none, none⟩ = false := by
  refine ⟨by decide, by decide, by decide⟩

/-- Claim C8: every traversal call that raises the effective
recursion-depth limit for its own duration restores the previous limit
on every exit path — for each of the three traversals, and for a body
that raises (`Except.error`), the process recursion limit after the
`with RecursionLimit(...)` block equals its value before it (CPython
keeps the recursion limit positive, whence `0 < st`). -/
theorem c8_limit_restored [DecidableEq α] (limit : Int) (st : Nat)
    (h : 0 < st) (g : Graph α) (visitor : α → β) (i : Nat) (seen : List α)
    (body : Except String (List β)) :
    (Node.preorderWithLimit g visitor i limit st).1 = st ∧
    (Node.postorderWithLimit g visitor i seen limit st).1 = st ∧
    (Node.postorderYieldWithLimit g visitor i seen limit st).1 = st ∧
    (runWithRecursionLimit limit st body).1 = st := by
  have key : RecursionLimit.exit (RecursionLimit.enter limit st).1
      (RecursionLimit.enter limit st).2 = st := by
    unfold RecursionLimit.enter RecursionLimit.exit
    by_cases hlt : (st : Int) < limit
    · rw [if_pos hlt]
      have hne : st ≠ 0 := by omega
      simp [hne]
    · rw [if_neg hlt]
  exact ⟨key, key, key, key⟩

/-- Claim C8, witness: starting from recursion limit `1000 > 0` and
raising it to `5000` for the traversal, each call — including one whose
body raises — leaves the limit at `1000`. -/
theorem c8_limit_restored_witness :
    (0 : Nat) < 1000 ∧
    (Node.preorderWithLimit demoChain Resolver.identity 0 5000 1000).1 = 1000 ∧
    (Node.postorderWithLimit demoChain Resolver.identity 0 [] 5000 1000).1 = 1000 ∧
    (Node.postorderYieldWithLimit demoChain Resolver.identity 0 [] 5000 1000).1 = 1000 ∧
    (runWithRecursionLimit 5000 1000
      (Except.error "RecursionError" : Except String (List Nat))).1 = 1000 := by
  refine ⟨by decide, ?_⟩
  have := c8_limit_restored (α := Nat) (β := Nat) 5000 1000 (by decide) demoChain
    Resolver.identity 0 [] (Except.error "RecursionError")
  exact ⟨this.1, this.2.1, this.2.2.1, this.2.2.2⟩

/-- Claim C9 (amended): `Version.__eq__` raises `AttributeError` (it
reads the nonexistent attribute `prepublished`) exactly when `major`,
`minor` and `patch` all agree — the short-circuiting `and` returns
`False` normally as soon as one of them differs — so it never returns
`True`; it does *not* raise on every pair (see
`c9_eq_counterexample`). -/
theorem c9_eq_amended : ∀ v w : Version,
    (Version.eqPy v w = .error "AttributeError: Version has no attribute prepublished"
      ↔ (v.major = w.major ∧ v.minor = w.minor ∧ v.patch = w.patch)) ∧
    (∀ b : Bool, Version.eqPy v w = .ok b → b = false) := by
  intro v w
  unfold Version.eqPy
  by_cases h1 : v.major = w.major <;> by_cases h2 : v.minor = w.minor <;>
    by_cases h3 : v.patch = w.patch <;> simp [h1, h2, h3]

/-- Claim C9, witness: comparing `1.2.3` with itself reaches the
nonexistent attribute and raises. -/
theorem c9_eq_amended_witness :
    Version.eqPy ⟨1, 2, 3, none, none⟩ ⟨1, 2, 3, none, none⟩
      = .error "AttributeError: Version has no attribute prepublished" :=
  (c9_eq_amended ⟨1, 2, 3, none, none⟩ ⟨1, 2, 3, none, none⟩).1.mpr ⟨rfl, rfl, rfl⟩

/-- Claim C9, counterexample to the claim as stated: `0.0.0 == 1.0.0`
completes normally with `False` — the comparison short-circuits before
touching `prepublished`, so equality does not raise on every pair. -/
theorem c9_eq_counterexample :
    Version.eqPy ⟨0, 0, 0, none, none⟩ ⟨1, 0, 0, none, none⟩ = .ok false := rfl

/-- Claim C10: the `warn` keyword omitted at construction defaults to
`True` (permissive): `Package(name="")` then constructs successfully
with only the `no name?` warning, and no construction that omits `warn`
ever raises a validation error. -/
theorem c10_default_permissive :
    Package.defaultWarn = true ∧
    (∀ (name : String) (version : Option Version) (url : Option String)
        (deps : List String),
      exceptIsOk (Package.make name version url deps Package.defaultWarn) = true) ∧
    Package.makeDefaults ""
      = .ok (⟨true, Package.defaultVersion, Package.defaultUrl, [], ""⟩, ["no name?"]) := by
  refine ⟨rfl, ?_, rfl⟩
  intro name version url deps
  obtain ⟨ws, hws⟩ := conforms_warn_true ⟨true, version, url, deps, name⟩ rfl
  simp [Package.make, Package.defaultWarn, hws, Except.map, exceptIsOk]

end Graph

end Fsm
